import Mathlib

/-!
Verification of the 1D heat-conduction solver in `src/main.cpp` (head1d).

The program integrates the 1D transient heat equation with a compact
fourth-order spatial scheme and Crank-Nicolson time stepping.  All real
arithmetic of the program (C++ `double`) is modelled exactly over `ℚ`.
The matrix assembly is modelled as the literal sequence of element writes
performed by the source (so that out-of-range writes for `num_x = 1` are
visible), the LU solve `solver.solve(b)` is modelled as the exact solution
`det⁻¹ • adjugate *ᵥ b` of the linear system, and the time-stepping loop
as a recursion that appends one state per step.
-/

namespace Head1d

open Matrix

/-- `const double L = 1.0;` (main.cpp:38), the fixed domain length. -/
def domainLength : ℚ := 1

/-- `double dx = L / (num_x + 1);` (main.cpp:98). -/
def dxOf (n : ℕ) : ℚ := domainLength / ((n : ℚ) + 1)

/-- Truncation toward zero, the semantics of `static_cast<int>` applied to a
nonnegative-or-negative `double` quotient (main.cpp:99). -/
def truncToZero (q : ℚ) : ℤ := if 0 ≤ q then ⌊q⌋ else -⌊-q⌋

/-- `int num_t_steps = static_cast<int>(total_time / dt);` (main.cpp:99); the
loop `for (int t = 0; t < num_t_steps; ++t)` runs `max 0 num_t_steps` times. -/
def stepsOf (total_time dt : ℚ) : ℕ := (truncToZero (total_time / dt)).toNat

/-- `double courant_number = alpha * dt / (dx * dx);` (main.cpp:112). -/
def courantOf (n : ℕ) (alpha dt : ℚ) : ℚ := alpha * dt / (dxOf n * dxOf n)

/-- Whether the advisory warning is printed: `if (courant_number > 0.5)`
(main.cpp:114). -/
def warnOf (n : ℕ) (alpha dt : ℚ) : Bool := decide ((1 : ℚ)/2 < courantOf n alpha dt)

/-- Cell position `double x = (i + 1) * dx;` (main.cpp:124). -/
def cellPos (n : ℕ) (i : ℕ) : ℚ := ((i : ℚ) + 1) * dxOf n

/-- The initial temperature profile (main.cpp:120-133): 100 inside the closed
band `[0.4, 0.6]`, 0 elsewhere. -/
def initState (n : ℕ) : Fin n → ℚ := fun i =>
  if 4/10 ≤ cellPos n (i : ℕ) ∧ cellPos n (i : ℕ) ≤ 6/10 then 100 else 0

/-- One matrix element write `M(row, col) = val`, with the row and column
indices as the C++ `int` expressions that compute them. -/
structure MatWrite where
  row : ℤ
  col : ℤ
  val : ℚ
deriving DecidableEq

/-- The three writes `M(i, i-1) = l; M(i, i) = c; M(i, i+1) = r` issued for one
interior loop index `i` (main.cpp:153-162). -/
def stencilWrites (i : ℤ) (l c r : ℚ) : List MatWrite :=
  [⟨i, i - 1, l⟩, ⟨i, i, c⟩, ⟨i, i + 1, r⟩]

/-- All writes of the interior loop `for (int i = 1; i < num_x - 1; ++i)`
(main.cpp:153-162), in program order. -/
def interiorWrites (n : ℕ) (l c r : ℚ) : List MatWrite :=
  ((List.range' 1 (n - 2)).map fun (k : ℕ) => stencilWrites ((k : ℕ) : ℤ) l c r).flatten

/-- The four boundary writes (main.cpp:164-177): row `0` gets diagonal value
`d` and off-diagonal `od` at column `1`; row `num_x - 1` gets `od` at column
`num_x - 2` and `d` on the diagonal, in program order. -/
def boundaryWrites (n : ℕ) (d od : ℚ) : List MatWrite :=
  [⟨0, 0, d⟩, ⟨0, 1, od⟩, ⟨(n : ℤ) - 1, (n : ℤ) - 2, od⟩, ⟨(n : ℤ) - 1, (n : ℤ) - 1, d⟩]

/-- The full write sequence building the averaging matrix `A` (main.cpp:153-174). -/
def writesA (n : ℕ) : List MatWrite :=
  interiorWrites n (1/6) (4/6) (1/6) ++ boundaryWrites n (4/6) (2/6)

/-- The full write sequence building the (unscaled) diffusion matrix `B`
(main.cpp:159-177). -/
def writesB (n : ℕ) : List MatWrite :=
  interiorWrites n 1 (-2) 1 ++ boundaryWrites n (-2) 2

/-- Execute one write on an `n × n` matrix.  A write whose indices fall outside
`[0, n)` changes nothing here; the separate predicate `MatWrite.inBounds`
records whether the C++ write was in range. -/
def setEntry {n : ℕ} (M : Matrix (Fin n) (Fin n) ℚ) (w : MatWrite) :
    Matrix (Fin n) (Fin n) ℚ :=
  fun i j => if ((i : ℕ) : ℤ) = w.row ∧ ((j : ℕ) : ℤ) = w.col then w.val else M i j

/-- Execute a list of writes in order (later writes win). -/
def applyWrites {n : ℕ} (M : Matrix (Fin n) (Fin n) ℚ) (ws : List MatWrite) :
    Matrix (Fin n) (Fin n) ℚ :=
  ws.foldl setEntry M

/-- A write stays within the bounds of an `n × n` matrix. -/
def MatWrite.inBounds (n : ℕ) (w : MatWrite) : Prop :=
  0 ≤ w.row ∧ w.row < (n : ℤ) ∧ 0 ≤ w.col ∧ w.col < (n : ℤ)

instance (n : ℕ) : DecidablePred (MatWrite.inBounds n) := fun w =>
  decidable_of_iff (0 ≤ w.row ∧ w.row < (n : ℤ) ∧ 0 ≤ w.col ∧ w.col < (n : ℤ)) Iff.rfl

/-- The averaging matrix `A` after assembly (main.cpp:147, 153-174). -/
def matA (n : ℕ) : Matrix (Fin n) (Fin n) ℚ := applyWrites 0 (writesA n)

/-- The diffusion matrix `B` after assembly, before the scaling by `1/dx²`
(main.cpp:148, 159-177). -/
def matBraw (n : ℕ) : Matrix (Fin n) (Fin n) ℚ := applyWrites 0 (writesB n)

/-- `B = B / (dx * dx);` (main.cpp:179). -/
def matB (n : ℕ) : Matrix (Fin n) (Fin n) ℚ :=
  fun i j => matBraw n i j / (dxOf n * dxOf n)

/-- `double factor = alpha * dt / 2.0;` (main.cpp:183). -/
def factor (alpha dt : ℚ) : ℚ := alpha * dt / 2

/-- `Eigen::MatrixXd LHS = A - factor * B;` (main.cpp:188). -/
def matLHS (n : ℕ) (alpha dt : ℚ) : Matrix (Fin n) (Fin n) ℚ :=
  matA n - factor alpha dt • matB n

/-- `Eigen::MatrixXd RHS = A + factor * B;` (main.cpp:189). -/
def matRHS (n : ℕ) (alpha dt : ℚ) : Matrix (Fin n) (Fin n) ℚ :=
  matA n + factor alpha dt • matB n

/-- Exact model of `solver.solve(b)` for the factorization of `M`
(main.cpp:192, 205): the exact solution of `M x = b` when `M` is invertible,
written with the adjugate so that it is executable. -/
def solveLU {n : ℕ} (M : Matrix (Fin n) (Fin n) ℚ) (b : Fin n → ℚ) : Fin n → ℚ :=
  (M.det)⁻¹ • (M.adjugate *ᵥ b)

/-- The current state `T_current` after `k` iterations of the time-stepping
loop (main.cpp:199-208): each iteration forms `b = RHS * T_current` and
replaces the state with `solver.solve(b)`. -/
def Tstate (n : ℕ) (alpha dt : ℚ) : ℕ → Fin n → ℚ
  | 0 => initState n
  | k + 1 => solveLU (matLHS n alpha dt) (matRHS n alpha dt *ᵥ Tstate n alpha dt k)

/-- The history vector `T_history` after `k` loop iterations (main.cpp:196-208):
the initial state is pushed before the loop and each iteration pushes the new
state. -/
def Thistory (n : ℕ) (alpha dt : ℚ) : ℕ → List (Fin n → ℚ)
  | 0 => [initState n]
  | k + 1 => Thistory n alpha dt k ++ [Tstate n alpha dt (k + 1)]

/-- The completed history of a run. -/
def runHistory (n : ℕ) (alpha dt total_time : ℚ) : List (Fin n → ℚ) :=
  Thistory n alpha dt (stepsOf total_time dt)

/-- A numeric command-line token: absent, present but rejected by
`std::stod`/`std::stoi` (which throw, terminating the program), or parsed. -/
inductive Arg (α : Type) where
  | absent
  | malformed
  | value (a : α)
deriving DecidableEq

/-- The command-line inputs the program reads (main.cpp:52-89). -/
structure CmdLine where
  alphaArg : Arg ℚ
  dtArg : Arg ℚ
  timeArg : Arg ℚ
  cellArg : Arg ℤ

/-- The resolved configuration after argument handling (main.cpp:33-37, 52-95). -/
structure Config where
  alpha : ℚ
  dt : ℚ
  total_time : ℚ
  num_x : ℤ

/-- The ways a run can stop before any state or operator is allocated. -/
inductive ConfigError where
  | parseFailure
  | missingCellCount
  | nonPositiveCellCount
deriving DecidableEq

/-- Resolution of one optional numeric argument with its default
(main.cpp:33-35, 56-63): an unparsable token throws out of `main`. -/
def resolveNum (dflt : ℚ) : Arg ℚ → Except ConfigError ℚ
  | .absent => .ok dflt
  | .malformed => .error .parseFailure
  | .value q => .ok q

/-- Argument handling in program order (main.cpp:52-95): option values are
resolved first, then the required positional cell count is read and checked
to be positive. -/
def parseConfig (args : CmdLine) : Except ConfigError Config :=
  match resolveNum (1/100) args.alphaArg with
  | .error e => .error e
  | .ok alpha =>
    match resolveNum (1/100) args.dtArg with
    | .error e => .error e
    | .ok dt =>
      match resolveNum 1 args.timeArg with
      | .error e => .error e
      | .ok total_time =>
        match args.cellArg with
        | .absent => .error .missingCellCount
        | .malformed => .error .parseFailure
        | .value z =>
          if z ≤ 0 then .error .nonPositiveCellCount
          else .ok ⟨alpha, dt, total_time, z⟩

/-- Everything a completed run produces for the result sink. -/
structure RunOutput where
  cells : ℕ
  warned : Bool
  history : List (Fin cells → ℚ)

/-- The simulation stage, run only on a valid configuration (main.cpp:98-215). -/
def runSim (n : ℕ) (alpha dt total_time : ℚ) : RunOutput :=
  ⟨n, warnOf n alpha dt, Thistory n alpha dt (stepsOf total_time dt)⟩

/-- The whole program: parse, then simulate; a configuration error terminates
the run before any state or operator exists. -/
def runProgram (args : CmdLine) : Except ConfigError RunOutput :=
  (parseConfig args).map fun cfg => runSim cfg.num_x.toNat cfg.alpha cfg.dt cfg.total_time

/-- An invalid configuration in the sense of the specification: missing or
non-positive cell count, or an unparsable numeric argument. -/
def invalidConfig (args : CmdLine) : Prop :=
  args.alphaArg = .malformed ∨ args.dtArg = .malformed ∨ args.timeArg = .malformed ∨
  args.cellArg = .absent ∨ args.cellArg = .malformed ∨
  ∃ z : ℤ, args.cellArg = .value z ∧ z ≤ 0

/-! ### Characterization of the assembled matrices -/

/-- The generic closed form of an assembled matrix, for `n ≥ 2`: interior row
`i` carries the stencil `(l, c, r)` at columns `(i-1, i, i+1)`, row `0` carries
`(d, od)` at columns `(0, 1)`, row `n-1` carries `(od, d)` at columns
`(n-2, n-1)`, and all other entries are `0`. -/
def entryGen (n : ℕ) (l c r d od : ℚ) (i j : Fin n) : ℚ :=
  if (i : ℕ) = 0 then
    (if (j : ℕ) = 0 then d else if (j : ℕ) = 1 then od else 0)
  else if (i : ℕ) = n - 1 then
    (if (j : ℕ) = n - 2 then od else if (j : ℕ) = n - 1 then d else 0)
  else
    (if (j : ℕ) + 1 = (i : ℕ) then l else if (j : ℕ) = (i : ℕ) then c
     else if (j : ℕ) = (i : ℕ) + 1 then r else 0)

lemma applyWrites_append {n : ℕ} (M : Matrix (Fin n) (Fin n) ℚ)
    (ws ws' : List MatWrite) :
    applyWrites M (ws ++ ws') = applyWrites (applyWrites M ws) ws' :=
  List.foldl_append _ _ _ _

lemma applyWrites_eq_of_forall_ne {n : ℕ} {ws : List MatWrite}
    (M : Matrix (Fin n) (Fin n) ℚ) {i j : Fin n}
    (h : ∀ w ∈ ws, ¬(((i : ℕ) : ℤ) = w.row ∧ ((j : ℕ) : ℤ) = w.col)) :
    applyWrites M ws i j = M i j := by
  induction ws generalizing M with
  | nil => rfl
  | cons w ws ih =>
    have hw := h w (List.mem_cons_self _ _)
    rw [show applyWrites M (w :: ws) = applyWrites (setEntry M w) ws from rfl,
      ih (setEntry M w) fun w' hw' => h w' (List.mem_cons_of_mem _ hw'), setEntry,
      if_neg hw]

lemma applyWrites_eq_of_mem {n : ℕ} {ws : List MatWrite}
    (M : Matrix (Fin n) (Fin n) ℚ) {i j : Fin n} {v : ℚ}
    (hmem : ∃ w ∈ ws, w.row = ((i : ℕ) : ℤ) ∧ w.col = ((j : ℕ) : ℤ))
    (hval : ∀ w ∈ ws, w.row = ((i : ℕ) : ℤ) → w.col = ((j : ℕ) : ℤ) → w.val = v) :
    applyWrites M ws i j = v := by
  induction ws generalizing M with
  | nil => exact absurd hmem (by simp)
  | cons w ws ih =>
    rw [show applyWrites M (w :: ws) = applyWrites (setEntry M w) ws from rfl]
    by_cases h : ∃ w' ∈ ws, w'.row = ((i : ℕ) : ℤ) ∧ w'.col = ((j : ℕ) : ℤ)
    · exact ih (setEntry M w) h fun w' hw' => hval w' (List.mem_cons_of_mem _ hw')
    · have hw : w.row = ((i : ℕ) : ℤ) ∧ w.col = ((j : ℕ) : ℤ) := by
        rcases hmem with ⟨w', hw', hpos⟩
        rcases List.mem_cons.mp hw' with rfl | hmem'
        · exact hpos
        · exact absurd ⟨w', hmem', hpos⟩ h
      rw [applyWrites_eq_of_forall_ne (setEntry M w)
          fun w' hw' hpos => h ⟨w', hw', hpos.1.symm, hpos.2.symm⟩,
        setEntry, if_pos ⟨hw.1.symm, hw.2.symm⟩]
      exact hval w (List.mem_cons_self _ _) hw.1 hw.2

lemma mem_interiorWrites {n : ℕ} {l c r : ℚ} {w : MatWrite} :
    w ∈ interiorWrites n l c r ↔
      ∃ k : ℕ, 1 ≤ k ∧ k < n - 1 ∧
        (w = ⟨(k : ℤ), (k : ℤ) - 1, l⟩ ∨ w = ⟨(k : ℤ), (k : ℤ), c⟩ ∨
         w = ⟨(k : ℤ), (k : ℤ) + 1, r⟩) := by
  constructor
  · intro hw
    rcases List.mem_flatten.mp hw with ⟨lst, hlst, hwl⟩
    rcases List.mem_map.mp hlst with ⟨k, hk, rfl⟩
    rw [List.mem_range'_1] at hk
    refine ⟨k, hk.1, by omega, ?_⟩
    simpa [stencilWrites] using hwl
  · rintro ⟨k, hk1, hk2, hw⟩
    refine List.mem_flatten.mpr ⟨stencilWrites (k : ℤ) l c r,
      List.mem_map.mpr ⟨k, List.mem_range'_1.mpr ⟨hk1, by omega⟩, rfl⟩, ?_⟩
    simpa [stencilWrites] using hw

lemma interior_apply {n : ℕ} (l c r : ℚ) (i j : Fin n) :
    applyWrites 0 (interiorWrites n l c r) i j =
      if 1 ≤ (i : ℕ) ∧ (i : ℕ) < n - 1 then
        (if (j : ℕ) + 1 = (i : ℕ) then l else if (j : ℕ) = (i : ℕ) then c
         else if (j : ℕ) = (i : ℕ) + 1 then r else 0)
      else 0 := by
  by_cases hrow : 1 ≤ (i : ℕ) ∧ (i : ℕ) < n - 1
  · rw [if_pos hrow]
    by_cases h1 : (j : ℕ) + 1 = (i : ℕ)
    · rw [if_pos h1]
      refine applyWrites_eq_of_mem 0 ⟨⟨((i : ℕ) : ℤ), ((i : ℕ) : ℤ) - 1, l⟩, ?_, by simp, by
        simp; omega⟩ ?_
      · exact mem_interiorWrites.mpr ⟨(i : ℕ), hrow.1, hrow.2, Or.inl rfl⟩
      · intro w hw hr hc
        rcases mem_interiorWrites.mp hw with ⟨k, -, -, hk | hk | hk⟩ <;> subst hk <;>
          simp only [MatWrite.val] <;> simp only [MatWrite.row, MatWrite.col] at hr hc <;> omega
    · by_cases h2 : (j : ℕ) = (i : ℕ)
      · rw [if_neg h1, if_pos h2]
        refine applyWrites_eq_of_mem 0 ⟨⟨((i : ℕ) : ℤ), ((i : ℕ) : ℤ), c⟩, ?_, by simp, by
          simp; omega⟩ ?_
        · exact mem_interiorWrites.mpr ⟨(i : ℕ), hrow.1, hrow.2, Or.inr (Or.inl rfl)⟩
        · intro w hw hr hc
          rcases mem_interiorWrites.mp hw with ⟨k, -, -, hk | hk | hk⟩ <;> subst hk <;>
            simp only [MatWrite.val] <;> simp only [MatWrite.row, MatWrite.col] at hr hc <;> omega
      · by_cases h3 : (j : ℕ) = (i : ℕ) + 1
        · rw [if_neg h1, if_neg h2, if_pos h3]
          refine applyWrites_eq_of_mem 0 ⟨⟨((i : ℕ) : ℤ), ((i : ℕ) : ℤ) + 1, r⟩, ?_, by simp, by
            simp; omega⟩ ?_
          · exact mem_interiorWrites.mpr ⟨(i : ℕ), hrow.1, hrow.2, Or.inr (Or.inr rfl)⟩
          · intro w hw hr hc
            rcases mem_interiorWrites.mp hw with ⟨k, -, -, hk | hk | hk⟩ <;> subst hk <;>
              simp only [MatWrite.val] <;> simp only [MatWrite.row, MatWrite.col] at hr hc <;>
              omega
        · rw [if_neg h1, if_neg h2, if_neg h3]
          rw [applyWrites_eq_of_forall_ne 0 ?_]
          · rfl
          · intro w hw hpos
            rcases mem_interiorWrites.mp hw with ⟨k, -, -, hk | hk | hk⟩ <;> subst hk <;>
              simp only [MatWrite.row, MatWrite.col] at hpos <;> omega
  · rw [if_neg hrow, applyWrites_eq_of_forall_ne 0 ?_]
    · rfl
    · intro w hw hpos
      rcases mem_interiorWrites.mp hw with ⟨k, hk1, hk2, hk | hk | hk⟩ <;> subst hk <;>
        simp only [MatWrite.row, MatWrite.col] at hpos <;> omega

lemma boundary_step {n : ℕ} (hn : 2 ≤ n) (d od : ℚ)
    (M : Matrix (Fin n) (Fin n) ℚ) (i j : Fin n) :
    applyWrites M (boundaryWrites n d od) i j =
      if (i : ℕ) = 0 then
        (if (j : ℕ) = 0 then d else if (j : ℕ) = 1 then od else M i j)
      else if (i : ℕ) = n - 1 then
        (if (j : ℕ) = n - 2 then od else if (j : ℕ) = n - 1 then d else M i j)
      else M i j := by
  have hi := i.isLt
  have hj := j.isLt
  simp only [applyWrites, boundaryWrites, List.foldl, setEntry]
  split_ifs <;> first | rfl | omega

lemma assembled_apply {n : ℕ} (hn : 2 ≤ n) (l c r d od : ℚ) (i j : Fin n) :
    applyWrites 0 (interiorWrites n l c r ++ boundaryWrites n d od) i j =
      entryGen n l c r d od i j := by
  have hi := i.isLt
  have hj := j.isLt
  rw [applyWrites_append, boundary_step hn, interior_apply, entryGen]
  split_ifs <;> first | rfl | omega

lemma matA_apply {n : ℕ} (hn : 2 ≤ n) (i j : Fin n) :
    matA n i j = entryGen n (1/6) (4/6) (1/6) (4/6) (2/6) i j :=
  assembled_apply hn _ _ _ _ _ i j

lemma matBraw_apply {n : ℕ} (hn : 2 ≤ n) (i j : Fin n) :
    matBraw n i j = entryGen n 1 (-2) 1 (-2) 2 i j :=
  assembled_apply hn _ _ _ _ _ i j

/-! ### The system operators entrywise -/

/-- The dimensionless combination `factor / dx²` entering every entry of the
system operators. -/
def gOf (n : ℕ) (alpha dt : ℚ) : ℚ := factor alpha dt / (dxOf n * dxOf n)

lemma matLHS_apply {n : ℕ} (hn : 2 ≤ n) (alpha dt : ℚ) (i j : Fin n) :
    matLHS n alpha dt i j =
      entryGen n (1/6 - gOf n alpha dt) (4/6 + 2 * gOf n alpha dt)
        (1/6 - gOf n alpha dt) (4/6 + 2 * gOf n alpha dt)
        (2 * (1/6 - gOf n alpha dt)) i j := by
  simp only [matLHS, Matrix.sub_apply, Matrix.smul_apply, smul_eq_mul]
  rw [matA_apply hn, matB, matBraw_apply hn]
  unfold entryGen gOf
  split_ifs <;> ring

lemma matRHS_apply {n : ℕ} (hn : 2 ≤ n) (alpha dt : ℚ) (i j : Fin n) :
    matRHS n alpha dt i j =
      entryGen n (1/6 + gOf n alpha dt) (4/6 - 2 * gOf n alpha dt)
        (1/6 + gOf n alpha dt) (4/6 - 2 * gOf n alpha dt)
        (2 * (1/6 + gOf n alpha dt)) i j := by
  simp only [matRHS, Matrix.add_apply, Matrix.smul_apply, smul_eq_mul]
  rw [matA_apply hn, matB, matBraw_apply hn]
  unfold entryGen gOf
  split_ifs <;> ring

/-! ### The conserved weighting -/

/-- Weights `1` on the two boundary cells and `2` on interior cells; the left
null vector of the assembled diffusion operator. -/
def bweight (n : ℕ) (i : Fin n) : ℚ := if (i : ℕ) = 0 ∨ (i : ℕ) = n - 1 then 1 else 2

lemma sum_univ_of_support_pair {M : Type*} [AddCommMonoid M] {n : ℕ} (f : Fin n → M)
    (a b : Fin n) (hab : a ≠ b) (h : ∀ i, i ≠ a → i ≠ b → f i = 0) :
    ∑ i, f i = f a + f b := by
  rw [← Finset.sum_pair hab]
  refine (Finset.sum_subset (Finset.subset_univ _) fun x _ hx => ?_).symm
  simp only [Finset.mem_insert, Finset.mem_singleton, not_or] at hx
  exact h x hx.1 hx.2

lemma sum_univ_of_support_triple {M : Type*} [AddCommMonoid M] {n : ℕ} (f : Fin n → M)
    (a b c : Fin n) (hab : a ≠ b) (hac : a ≠ c) (hbc : b ≠ c)
    (h : ∀ i, i ≠ a → i ≠ b → i ≠ c → f i = 0) :
    ∑ i, f i = f a + f b + f c := by
  have habc : a ∉ ({b, c} : Finset (Fin n)) := by simp [hab, hac]
  have hstep : ∑ x ∈ ({a, b, c} : Finset (Fin n)), f x = ∑ i, f i :=
    Finset.sum_subset (Finset.subset_univ _) fun x _ hx => by
      simp only [Finset.mem_insert, Finset.mem_singleton, not_or] at hx
      exact h x hx.1 hx.2.1 hx.2.2
  rw [← hstep, Finset.sum_insert habc, Finset.sum_pair hbc, add_assoc]

lemma sum_univ_pair_vals {M : Type*} [AddCommMonoid M] {n : ℕ} (f : Fin n → M)
    (av bv : ℕ) (ha : av < n) (hb : bv < n) (hab : av ≠ bv) (x y : M)
    (hfa : ∀ i : Fin n, (i : ℕ) = av → f i = x)
    (hfb : ∀ i : Fin n, (i : ℕ) = bv → f i = y)
    (h0 : ∀ i : Fin n, (i : ℕ) ≠ av → (i : ℕ) ≠ bv → f i = 0) :
    ∑ i, f i = x + y := by
  rw [sum_univ_of_support_pair f ⟨av, ha⟩ ⟨bv, hb⟩ (Fin.ne_of_val_ne hab)
    (fun i hi1 hi2 => h0 i (fun h => hi1 (Fin.ext h)) fun h => hi2 (Fin.ext h)),
    hfa ⟨av, ha⟩ rfl, hfb ⟨bv, hb⟩ rfl]

lemma sum_univ_triple_vals {M : Type*} [AddCommMonoid M] {n : ℕ} (f : Fin n → M)
    (av bv cv : ℕ) (ha : av < n) (hb : bv < n) (hc : cv < n)
    (hab : av ≠ bv) (hac : av ≠ cv) (hbc : bv ≠ cv) (x y z : M)
    (hfa : ∀ i : Fin n, (i : ℕ) = av → f i = x)
    (hfb : ∀ i : Fin n, (i : ℕ) = bv → f i = y)
    (hfc : ∀ i : Fin n, (i : ℕ) = cv → f i = z)
    (h0 : ∀ i : Fin n, (i : ℕ) ≠ av → (i : ℕ) ≠ bv → (i : ℕ) ≠ cv → f i = 0) :
    ∑ i, f i = x + y + z := by
  rw [sum_univ_of_support_triple f ⟨av, ha⟩ ⟨bv, hb⟩ ⟨cv, hc⟩ (Fin.ne_of_val_ne hab)
    (Fin.ne_of_val_ne hac) (Fin.ne_of_val_ne hbc)
    (fun i hi1 hi2 hi3 => h0 i (fun h => hi1 (Fin.ext h)) (fun h => hi2 (Fin.ext h))
      fun h => hi3 (Fin.ext h)),
    hfa ⟨av, ha⟩ rfl, hfb ⟨bv, hb⟩ rfl, hfc ⟨cv, hc⟩ rfl]

set_option maxHeartbeats 1000000 in
lemma sum_bweight_entryGen {n : ℕ} (hn : 2 ≤ n) (l c d : ℚ) (j : Fin n) :
    ∑ i, bweight n i * entryGen n l c l d (2 * l) i j =
      if (j : ℕ) = 0 ∨ (j : ℕ) = n - 1 then d + 2 * l else 2 * c + 4 * l := by
  have hj := j.isLt
  by_cases hj0 : (j : ℕ) = 0
  · rw [if_pos (Or.inl hj0),
      sum_univ_pair_vals _ 0 1 (by omega) (by omega) (by omega) d (2 * l) ?_ ?_ ?_]
    · intro i hi
      unfold bweight entryGen
      split_ifs <;> first | omega | ring
    · intro i hi
      unfold bweight entryGen
      split_ifs <;> first | omega | ring
    · intro i hi1 hi2
      unfold bweight entryGen
      split_ifs <;> first | omega | ring
  · by_cases hjn : (j : ℕ) = n - 1
    · rw [if_pos (Or.inr hjn),
        sum_univ_pair_vals _ (n - 2) (n - 1) (by omega) (by omega) (by omega) (2 * l) d
          ?_ ?_ ?_]
      · rw [add_comm]
      · intro i hi
        unfold bweight entryGen
        split_ifs <;> first | omega | ring
      · intro i hi
        unfold bweight entryGen
        split_ifs <;> first | omega | ring
      · intro i hi1 hi2
        unfold bweight entryGen
        split_ifs <;> first | omega | ring
    · rw [if_neg (by omega),
        sum_univ_triple_vals _ ((j : ℕ) - 1) (j : ℕ) ((j : ℕ) + 1) (by omega) (by omega)
          (by omega) (by omega) (by omega) (by omega) (2 * l) (2 * c) (2 * l) ?_ ?_ ?_ ?_]
      · ring
      · intro i hi
        unfold bweight entryGen
        split_ifs <;> first | omega | ring
      · intro i hi
        unfold bweight entryGen
        split_ifs <;> first | omega | ring
      · intro i hi
        unfold bweight entryGen
        split_ifs <;> first | omega | ring
      · intro i hi1 hi2 hi3
        unfold bweight entryGen
        split_ifs <;> first | omega | ring

lemma vecMul_bweight_matLHS {n : ℕ} (hn : 2 ≤ n) (alpha dt : ℚ) :
    bweight n ᵥ* matLHS n alpha dt = bweight n := by
  funext j
  show ∑ i, bweight n i * matLHS n alpha dt i j = bweight n j
  rw [Finset.sum_congr rfl fun i _ => by rw [matLHS_apply hn alpha dt i j],
    sum_bweight_entryGen hn]
  unfold bweight
  split_ifs <;> ring

lemma vecMul_bweight_matRHS {n : ℕ} (hn : 2 ≤ n) (alpha dt : ℚ) :
    bweight n ᵥ* matRHS n alpha dt = bweight n := by
  funext j
  show ∑ i, bweight n i * matRHS n alpha dt i j = bweight n j
  rw [Finset.sum_congr rfl fun i _ => by rw [matRHS_apply hn alpha dt i j],
    sum_bweight_entryGen hn]
  unfold bweight
  split_ifs <;> ring

/-! ### Invertibility of the left-hand operator -/

lemma ratNorm (q : ℚ) : ‖q‖ = |(q : ℝ)| := by
  rw [← Rat.norm_cast_real, Real.norm_eq_abs]

lemma sum_erase_of_support_single {n : ℕ} (f : Fin n → ℝ) (k a : Fin n) (hak : a ≠ k)
    (h : ∀ i, i ≠ k → i ≠ a → f i = 0) :
    ∑ j ∈ Finset.univ.erase k, f j = f a := by
  rw [← Finset.sum_singleton f a]
  refine (Finset.sum_subset ?_ fun x hx hxa => ?_).symm
  · simpa using hak
  · exact h x (Finset.mem_erase.mp hx).1 (by simpa using hxa)

lemma sum_erase_of_support_pair {n : ℕ} (f : Fin n → ℝ) (k a b : Fin n) (hak : a ≠ k)
    (hbk : b ≠ k) (hab : a ≠ b) (h : ∀ i, i ≠ k → i ≠ a → i ≠ b → f i = 0) :
    ∑ j ∈ Finset.univ.erase k, f j = f a + f b := by
  rw [← Finset.sum_pair hab]
  refine (Finset.sum_subset ?_ fun x hx hxa => ?_).symm
  · intro x hx
    simp only [Finset.mem_insert, Finset.mem_singleton] at hx
    rcases hx with rfl | rfl <;> simp [hak, hbk]
  · simp only [Finset.mem_insert, Finset.mem_singleton, not_or] at hxa
    exact h x (Finset.mem_erase.mp hx).1 hxa.1 hxa.2

lemma sum_erase_single_vals {n : ℕ} (f : Fin n → ℝ) (k : Fin n) (av : ℕ) (ha : av < n)
    (hak : av ≠ (k : ℕ)) (x : ℝ)
    (hfa : ∀ i : Fin n, (i : ℕ) = av → f i = x)
    (h0 : ∀ i : Fin n, (i : ℕ) ≠ (k : ℕ) → (i : ℕ) ≠ av → f i = 0) :
    ∑ j ∈ Finset.univ.erase k, f j = x := by
  rw [sum_erase_of_support_single f k ⟨av, ha⟩ (Fin.ne_of_val_ne hak)
    (fun i hik hia => h0 i (fun h => hik (Fin.ext h)) fun h => hia (Fin.ext h)),
    hfa ⟨av, ha⟩ rfl]

lemma sum_erase_pair_vals {n : ℕ} (f : Fin n → ℝ) (k : Fin n) (av bv : ℕ)
    (ha : av < n) (hb : bv < n) (hak : av ≠ (k : ℕ)) (hbk : bv ≠ (k : ℕ))
    (hab : av ≠ bv) (x y : ℝ)
    (hfa : ∀ i : Fin n, (i : ℕ) = av → f i = x)
    (hfb : ∀ i : Fin n, (i : ℕ) = bv → f i = y)
    (h0 : ∀ i : Fin n, (i : ℕ) ≠ (k : ℕ) → (i : ℕ) ≠ av → (i : ℕ) ≠ bv → f i = 0) :
    ∑ j ∈ Finset.univ.erase k, f j = x + y := by
  rw [sum_erase_of_support_pair f k ⟨av, ha⟩ ⟨bv, hb⟩ (Fin.ne_of_val_ne hak)
    (Fin.ne_of_val_ne hbk) (Fin.ne_of_val_ne hab)
    (fun i hik hia hib => h0 i (fun h => hik (Fin.ext h)) (fun h => hia (Fin.ext h))
      fun h => hib (Fin.ext h)),
    hfa ⟨av, ha⟩ rfl, hfb ⟨bv, hb⟩ rfl]

lemma normBoundDouble {g : ℚ} (hg : 0 ≤ g) : ‖2 * (1/6 - g)‖ < ‖4/6 + 2 * g‖ := by
  rw [ratNorm, ratNorm]
  push_cast
  have hgR : (0 : ℝ) ≤ (g : ℝ) := by exact_mod_cast hg
  rw [abs_of_pos (by linarith : (0:ℝ) < 4/6 + 2 * (g : ℝ))]
  rcases abs_cases (2 * ((1:ℝ)/6 - (g : ℝ))) with ⟨he, -⟩ | ⟨he, -⟩ <;> rw [he] <;> linarith

lemma normBoundPair {g : ℚ} (hg : 0 ≤ g) :
    ‖1/6 - g‖ + ‖1/6 - g‖ < ‖4/6 + 2 * g‖ := by
  rw [ratNorm, ratNorm]
  push_cast
  have hgR : (0 : ℝ) ≤ (g : ℝ) := by exact_mod_cast hg
  rw [abs_of_pos (by linarith : (0:ℝ) < 4/6 + 2 * (g : ℝ))]
  rcases abs_cases ((1:ℝ)/6 - (g : ℝ)) with ⟨he, -⟩ | ⟨he, -⟩ <;> rw [he] <;> linarith

set_option maxHeartbeats 1000000 in
lemma det_matLHS_ne_zero {n : ℕ} (hn : 2 ≤ n) {alpha dt : ℚ} (hf : 0 ≤ alpha * dt) :
    (matLHS n alpha dt).det ≠ 0 := by
  have hg : (0 : ℚ) ≤ gOf n alpha dt := by
    unfold gOf factor
    exact div_nonneg (div_nonneg hf (by norm_num)) (mul_self_nonneg _)
  apply det_ne_zero_of_sum_row_lt_diag
  intro k
  have hk := k.isLt
  have hdiag : matLHS n alpha dt k k = 4/6 + 2 * gOf n alpha dt := by
    rw [matLHS_apply hn]
    unfold entryGen
    split_ifs <;> first | rfl | omega
  rw [hdiag]
  by_cases hk0 : (k : ℕ) = 0
  · rw [sum_erase_single_vals _ k 1 (by omega) (by omega) ‖2 * (1/6 - gOf n alpha dt)‖
      ?_ ?_]
    · exact normBoundDouble hg
    · intro i hi
      have he : matLHS n alpha dt k i = 2 * (1/6 - gOf n alpha dt) := by
        rw [matLHS_apply hn]
        unfold entryGen
        split_ifs <;> first | rfl | omega
      rw [he]
    · intro i hik hia
      have hz : matLHS n alpha dt k i = 0 := by
        rw [matLHS_apply hn]
        unfold entryGen
        split_ifs <;> first | rfl | omega
      rw [hz, norm_zero]
  · by_cases hkn : (k : ℕ) = n - 1
    · rw [sum_erase_single_vals _ k (n - 2) (by omega) (by omega)
        ‖2 * (1/6 - gOf n alpha dt)‖ ?_ ?_]
      · exact normBoundDouble hg
      · intro i hi
        have he : matLHS n alpha dt k i = 2 * (1/6 - gOf n alpha dt) := by
          rw [matLHS_apply hn]
          unfold entryGen
          split_ifs <;> first | rfl | omega
        rw [he]
      · intro i hik hia
        have hz : matLHS n alpha dt k i = 0 := by
          rw [matLHS_apply hn]
          unfold entryGen
          split_ifs <;> first | rfl | omega
        rw [hz, norm_zero]
    · rw [sum_erase_pair_vals _ k ((k : ℕ) - 1) ((k : ℕ) + 1) (by omega) (by omega)
        (by omega) (by omega) (by omega) ‖1/6 - gOf n alpha dt‖ ‖1/6 - gOf n alpha dt‖
        ?_ ?_ ?_]
      · exact normBoundPair hg
      · intro i hi
        have he : matLHS n alpha dt k i = 1/6 - gOf n alpha dt := by
          rw [matLHS_apply hn]
          unfold entryGen
          split_ifs <;> first | rfl | omega
        rw [he]
      · intro i hi
        have he : matLHS n alpha dt k i = 1/6 - gOf n alpha dt := by
          rw [matLHS_apply hn]
          unfold entryGen
          split_ifs <;> first | rfl | omega
        rw [he]
      · intro i hik hia hib
        have hz : matLHS n alpha dt k i = 0 := by
          rw [matLHS_apply hn]
          unfold entryGen
          split_ifs <;> first | rfl | omega
        rw [hz, norm_zero]

/-! ### The modelled solve -/

lemma mulVec_solveLU {n : ℕ} {M : Matrix (Fin n) (Fin n) ℚ} (hM : M.det ≠ 0)
    (b : Fin n → ℚ) : M *ᵥ solveLU M b = b := by
  unfold solveLU
  rw [Matrix.mulVec_smul, Matrix.mulVec_mulVec, Matrix.mul_adjugate,
    Matrix.smul_mulVec_assoc, Matrix.one_mulVec, smul_smul, inv_mul_cancel₀ hM, one_smul]

lemma solveLU_unique {n : ℕ} {M : Matrix (Fin n) (Fin n) ℚ} (hM : M.det ≠ 0)
    {x b : Fin n → ℚ} (hx : M *ᵥ x = b) : solveLU M b = x := by
  subst hx
  unfold solveLU
  rw [Matrix.mulVec_mulVec, Matrix.adjugate_mul, Matrix.smul_mulVec_assoc,
    Matrix.one_mulVec, smul_smul, inv_mul_cancel₀ hM, one_smul]

/-! ### The history list -/

lemma Thistory_length (n : ℕ) (alpha dt : ℚ) (k : ℕ) :
    (Thistory n alpha dt k).length = k + 1 := by
  induction k with
  | zero => rfl
  | succ k ih => simp [Thistory, ih]

lemma mem_Thistory {n : ℕ} {alpha dt : ℚ} {k : ℕ} {T : Fin n → ℚ} :
    T ∈ Thistory n alpha dt k ↔ ∃ k' ≤ k, T = Tstate n alpha dt k' := by
  induction k with
  | zero =>
    constructor
    · intro h
      exact ⟨0, le_refl 0, by simpa [Thistory, Tstate] using h⟩
    · rintro ⟨k', hk', rfl⟩
      interval_cases k'
      simp [Thistory, Tstate]
  | succ k ih =>
    constructor
    · intro h
      rcases List.mem_append.mp h with h | h
      · rcases ih.mp h with ⟨k', hk', rfl⟩
        exact ⟨k', le_trans hk' (Nat.le_succ k), rfl⟩
      · exact ⟨k + 1, le_refl _, by simpa using h⟩
    · rintro ⟨k', hk', rfl⟩
      rcases Nat.lt_or_ge k' (k + 1) with h | h
      · exact List.mem_append.mpr (Or.inl (ih.mpr ⟨k', Nat.lt_succ_iff.mp h, rfl⟩))
      · have : k' = k + 1 := le_antisymm hk' h
        subst this
        exact List.mem_append.mpr (Or.inr (by simp))

lemma Thistory_getElem? (n : ℕ) (alpha dt : ℚ) (k k' : ℕ) (h : k' ≤ k) :
    (Thistory n alpha dt k)[k']? = some (Tstate n alpha dt k') := by
  induction k with
  | zero =>
    interval_cases k'
    rfl
  | succ k ih =>
    show (Thistory n alpha dt k ++ [Tstate n alpha dt (k + 1)])[k']? = _
    rcases Nat.lt_or_ge k' (k + 1) with hlt | hge
    · rw [List.getElem?_append, if_pos (by rw [Thistory_length]; exact hlt)]
      exact ih (Nat.lt_succ_iff.mp hlt)
    · have : k' = k + 1 := le_antisymm h hge
      subst this
      rw [List.getElem?_append, if_neg (by rw [Thistory_length]; omega)]
      simp [Thistory_length]

/-! ### The claims -/

/-- The averaging-operator entries as the specification states them: interior
rows `[1/6, 4/6, 1/6]`, boundary row `0` equal to `4/6, 2/6`, boundary row
`n-1` the mirror `2/6, 4/6`, zero elsewhere. -/
def entrySpecA (n : ℕ) (i j : Fin n) : ℚ := entryGen n (1/6) (4/6) (1/6) (4/6) (2/6) i j

/-- The pre-scaling diffusion-operator entries as the specification states
them: interior rows `[1, -2, 1]`, boundary row `0` equal to `-2, 2`, boundary
row `n-1` the mirror `2, -2`, zero elsewhere. -/
def entrySpecB (n : ℕ) (i j : Fin n) : ℚ := entryGen n 1 (-2) 1 (-2) 2 i j

/-- C1: for every run with at least two cells and nonnegative
`diffusivity × time_step`, the left-hand operator is entrywise the averaging
operator minus `factor = alpha*dt/2` times the `1/dx²`-scaled diffusion
operator, the right-hand operator is the averaging operator plus that same
term, and every step of the loop solves the one fixed left-hand system (the
single cached factorization): the state after step `k+1` satisfies
`LHS · T_{k+1} = RHS · T_k` with the same `LHS` at every step. -/
theorem c1_system_operators_cached (n : ℕ) (hn : 2 ≤ n) (alpha dt : ℚ)
    (hpos : 0 ≤ alpha * dt) :
    (∀ i j : Fin n, matLHS n alpha dt i j = matA n i j - alpha * dt / 2 * matB n i j) ∧
    (∀ i j : Fin n, matRHS n alpha dt i j = matA n i j + alpha * dt / 2 * matB n i j) ∧
    (∀ k : ℕ, matLHS n alpha dt *ᵥ Tstate n alpha dt (k + 1) =
      matRHS n alpha dt *ᵥ Tstate n alpha dt k) := by
  refine ⟨fun i j => ?_, fun i j => ?_, fun k => ?_⟩
  · simp [matLHS, factor, Matrix.sub_apply, Matrix.smul_apply, smul_eq_mul]
  · simp [matRHS, factor, Matrix.add_apply, Matrix.smul_apply, smul_eq_mul]
  · show matLHS n alpha dt *ᵥ
        solveLU (matLHS n alpha dt) (matRHS n alpha dt *ᵥ Tstate n alpha dt k) = _
    exact mulVec_solveLU (det_matLHS_ne_zero hn hpos) _

/-- Witness for C1 at `n = 2`, `alpha = dt = 1/100`. -/
theorem c1_witness :
    (2 ≤ 2) ∧ (0 ≤ (1/100 : ℚ) * (1/100)) ∧
    ((∀ i j : Fin 2, matLHS 2 (1/100) (1/100) i j =
        matA 2 i j - 1/100 * (1/100) / 2 * matB 2 i j) ∧
     (∀ i j : Fin 2, matRHS 2 (1/100) (1/100) i j =
        matA 2 i j + 1/100 * (1/100) / 2 * matB 2 i j) ∧
     (∀ k : ℕ, matLHS 2 (1/100) (1/100) *ᵥ Tstate 2 (1/100) (1/100) (k + 1) =
        matRHS 2 (1/100) (1/100) *ᵥ Tstate 2 (1/100) (1/100) k)) :=
  ⟨by norm_num, by norm_num,
    c1_system_operators_cached 2 (by norm_num) (1/100) (1/100) (by norm_num)⟩

/-- C2: for `cell_count ≥ 2` the assembled averaging and diffusion matrices
have exactly the entries the specification lists (interior stencils
`[1/6,4/6,1/6]` and `[1,-2,1]`, boundary closures `4/6, 2/6` and `-2, 2`
with their mirrors, zero elsewhere), and the scaled diffusion matrix divides
every entry by `spacing²`. -/
theorem c2_assembly_entries (n : ℕ) (hn : 2 ≤ n) :
    ∀ i j : Fin n,
      matA n i j = entrySpecA n i j ∧
      matBraw n i j = entrySpecB n i j ∧
      matB n i j = entrySpecB n i j / (dxOf n * dxOf n) := by
  intro i j
  refine ⟨matA_apply hn i j, matBraw_apply hn i j, ?_⟩
  rw [matB, matBraw_apply hn]
  rfl

/-- Witness for C2 at `n = 3`. -/
theorem c2_witness :
    (2 ≤ 3) ∧ ∀ i j : Fin 3,
      matA 3 i j = entrySpecA 3 i j ∧
      matBraw 3 i j = entrySpecB 3 i j ∧
      matB 3 i j = entrySpecB 3 i j / (dxOf 3 * dxOf 3) :=
  ⟨by norm_num, c2_assembly_entries 3 (by norm_num)⟩

/-- C3: spacing is `domain_length / (cell_count + 1)`, cell `i` sits at
position `(i+1) · spacing`, the initial state is `100` exactly on the cells
whose position lies in the closed band `[0.4, 0.6]` and `0` on every other
cell, and for `cell_count = 5` the initial vector is `100` at index `2` and
`0` elsewhere. -/
theorem c3_grid_and_initial_state (n : ℕ) (hn : 0 < n) :
    dxOf n = domainLength / ((n : ℚ) + 1) ∧
    (∀ i : Fin n, cellPos n (i : ℕ) = (((i : ℕ) : ℚ) + 1) * dxOf n) ∧
    (∀ i : Fin n,
      (initState n i = 100 ↔ 4/10 ≤ cellPos n (i : ℕ) ∧ cellPos n (i : ℕ) ≤ 6/10) ∧
      (initState n i = 0 ↔ ¬(4/10 ≤ cellPos n (i : ℕ) ∧ cellPos n (i : ℕ) ≤ 6/10))) ∧
    (∀ i : Fin 5, initState 5 i = if (i : ℕ) = 2 then 100 else 0) := by
  refine ⟨rfl, fun i => rfl, fun i => ?_,
    by intro i; fin_cases i <;> norm_num [initState, cellPos, dxOf, domainLength]⟩
  unfold initState
  split_ifs with h
  · exact ⟨⟨fun _ => h, fun _ => rfl⟩,
      ⟨fun h100 => absurd h100 (by norm_num), fun hnc => absurd h hnc⟩⟩
  · exact ⟨⟨fun h0 => absurd h0 (by norm_num), fun hc => absurd hc h⟩,
      ⟨fun _ => h, fun _ => rfl⟩⟩

/-- Witness for C3 at `n = 5`. -/
theorem c3_witness :
    (0 < 5) ∧
    (dxOf 5 = domainLength / ((5 : ℚ) + 1) ∧
     (∀ i : Fin 5, cellPos 5 (i : ℕ) = (((i : ℕ) : ℚ) + 1) * dxOf 5) ∧
     (∀ i : Fin 5,
       (initState 5 i = 100 ↔ 4/10 ≤ cellPos 5 (i : ℕ) ∧ cellPos 5 (i : ℕ) ≤ 6/10) ∧
       (initState 5 i = 0 ↔ ¬(4/10 ≤ cellPos 5 (i : ℕ) ∧ cellPos 5 (i : ℕ) ≤ 6/10))) ∧
     (∀ i : Fin 5, initState 5 i = if (i : ℕ) = 2 then 100 else 0)) :=
  ⟨by norm_num, c3_grid_and_initial_state 5 (by norm_num)⟩

/-- C4: with zero diffusivity both system operators coincide with the
averaging operator, and every solve returns the previous state, so every
history entry equals the initial state (stated for `cell_count ≥ 2`, the
range where assembly is in bounds). -/
theorem c4_zero_diffusivity (n : ℕ) (hn : 2 ≤ n) (dt total_time : ℚ) :
    matLHS n 0 dt = matA n ∧ matRHS n 0 dt = matA n ∧
    ∀ T ∈ runHistory n 0 dt total_time, T = initState n := by
  have hL : matLHS n 0 dt = matA n := by
    unfold matLHS factor
    simp
  have hR : matRHS n 0 dt = matA n := by
    unfold matRHS factor
    simp
  have hdet : (matLHS n 0 dt).det ≠ 0 := det_matLHS_ne_zero hn (by norm_num)
  have hstate : ∀ k, Tstate n 0 dt k = initState n := by
    intro k
    induction k with
    | zero => rfl
    | succ k ih =>
      show solveLU (matLHS n 0 dt) (matRHS n 0 dt *ᵥ Tstate n 0 dt k) = _
      rw [ih, hR]
      exact solveLU_unique hdet (by rw [hL])
  refine ⟨hL, hR, fun T hT => ?_⟩
  rcases mem_Thistory.mp hT with ⟨k', hk', rfl⟩
  exact hstate k'

/-- Witness for C4 at `n = 2`, `dt = 1/100`, `total_time = 1`. -/
theorem c4_witness :
    (2 ≤ 2) ∧
    (matLHS 2 0 (1/100) = matA 2 ∧ matRHS 2 0 (1/100) = matA 2 ∧
     ∀ T ∈ runHistory 2 0 (1/100) 1, T = initState 2) :=
  ⟨by norm_num, c4_zero_diffusivity 2 (by norm_num) (1/100) 1⟩

/-- C5 as stated is false on the code: in the run with `cell_count = 3`,
`diffusivity = 1`, `time_step = 1`, `total_time = 1` (one step), the
spacing-weighted plain sum of the state after the step differs from that of
the initial state. -/
theorem c5_counterexample :
    ¬ (∀ T ∈ runHistory 3 1 1 1,
        dxOf 3 * (∑ i, T i) = dxOf 3 * (∑ i, initState 3 i)) := by
  intro hclaim
  have hdet3 : (matLHS 3 1 1).det ≠ 0 :=
    det_matLHS_ne_zero (by norm_num) (by norm_num)
  have hT0 : initState 3 = ![0, 100, 0] := by
    funext i
    fin_cases i <;> norm_num [initState, cellPos, dxOf, domainLength]
  have hL3 : matLHS 3 1 1 = !![50/3, -47/3, 0; -47/6, 50/3, -47/6; 0, -47/3, 50/3] := by
    funext i j
    rw [matLHS_apply (by norm_num : 2 ≤ 3)]
    fin_cases i <;> fin_cases j <;>
      norm_num [entryGen, gOf, factor, dxOf, domainLength]
  have hR3 : matRHS 3 1 1 = !![-46/3, 49/3, 0; 49/6, -46/3, 49/6; 0, 49/3, -46/3] := by
    funext i j
    rw [matRHS_apply (by norm_num : 2 ≤ 3)]
    fin_cases i <;> fin_cases j <;>
      norm_num [entryGen, gOf, factor, dxOf, domainLength]
  have hT1 : Tstate 3 1 1 1 = ![9600/97, 100/97, 9600/97] := by
    show solveLU (matLHS 3 1 1) (matRHS 3 1 1 *ᵥ Tstate 3 1 1 0) = _
    refine solveLU_unique hdet3 ?_
    show matLHS 3 1 1 *ᵥ ![9600/97, 100/97, 9600/97] = matRHS 3 1 1 *ᵥ initState 3
    rw [hL3, hR3, hT0]
    funext i
    fin_cases i <;>
      simp [Matrix.mulVec, Matrix.dotProduct, Fin.sum_univ_three] <;> norm_num
  have hmem : Tstate 3 1 1 1 ∈ runHistory 3 1 1 1 := by
    have hsteps : stepsOf 1 1 = 1 := by norm_num [stepsOf, truncToZero]
    unfold runHistory
    rw [hsteps]
    exact mem_Thistory.mpr ⟨1, le_refl 1, rfl⟩
  have := hclaim (Tstate 3 1 1 1) hmem
  rw [hT1, hT0] at this
  simp only [Fin.sum_univ_three] at this
  norm_num [dxOf, domainLength] at this

/-- C5 amended: what the adiabatic discretization conserves exactly is the
spacing-weighted sum in which the two boundary cells carry weight `1` and
the interior cells weight `2` (the left null vector of the assembled
diffusion operator); this quantity is unchanged by every step, for every
pair of states related by one solve and along the whole run history, for
`cell_count ≥ 2` and nonnegative `diffusivity × time_step`.  The plain
uniformly-weighted sum of `c5_counterexample` is not conserved. -/
theorem c5_amended_weighted_conservation (n : ℕ) (hn : 2 ≤ n)
    (alpha dt total_time : ℚ) (hpos : 0 ≤ alpha * dt) :
    (∀ T Tnext : Fin n → ℚ, matLHS n alpha dt *ᵥ Tnext = matRHS n alpha dt *ᵥ T →
      dxOf n * (∑ i, bweight n i * Tnext i) = dxOf n * (∑ i, bweight n i * T i)) ∧
    (∀ T ∈ runHistory n alpha dt total_time,
      dxOf n * (∑ i, bweight n i * T i) =
        dxOf n * (∑ i, bweight n i * initState n i)) := by
  have key : ∀ T Tnext : Fin n → ℚ,
      matLHS n alpha dt *ᵥ Tnext = matRHS n alpha dt *ᵥ T →
      (∑ i, bweight n i * Tnext i) = ∑ i, bweight n i * T i := by
    intro T Tnext hstep
    have h1 : bweight n ⬝ᵥ (matLHS n alpha dt *ᵥ Tnext) =
        bweight n ⬝ᵥ (matRHS n alpha dt *ᵥ T) := by rw [hstep]
    rwa [Matrix.dotProduct_mulVec, Matrix.dotProduct_mulVec,
      vecMul_bweight_matLHS hn, vecMul_bweight_matRHS hn] at h1
  have hdet := det_matLHS_ne_zero hn hpos
  have hstate : ∀ k, (∑ i, bweight n i * Tstate n alpha dt k i) =
      ∑ i, bweight n i * initState n i := by
    intro k
    induction k with
    | zero => rfl
    | succ k ih =>
      rw [← ih]
      refine key (Tstate n alpha dt k) _ ?_
      show matLHS n alpha dt *ᵥ
          solveLU (matLHS n alpha dt) (matRHS n alpha dt *ᵥ Tstate n alpha dt k) = _
      exact mulVec_solveLU hdet _
  refine ⟨fun T Tnext h => by rw [key T Tnext h], fun T hT => ?_⟩
  rcases mem_Thistory.mp hT with ⟨k', hk', rfl⟩
  rw [hstate k']

/-- Witness for the amended C5 at `n = 3`, `alpha = dt = total_time = 1`. -/
theorem c5_witness :
    (2 ≤ 3) ∧ (0 ≤ (1 : ℚ) * 1) ∧
    ((∀ T Tnext : Fin 3 → ℚ, matLHS 3 1 1 *ᵥ Tnext = matRHS 3 1 1 *ᵥ T →
        dxOf 3 * (∑ i, bweight 3 i * Tnext i) = dxOf 3 * (∑ i, bweight 3 i * T i)) ∧
     (∀ T ∈ runHistory 3 1 1 1,
        dxOf 3 * (∑ i, bweight 3 i * T i) =
          dxOf 3 * (∑ i, bweight 3 i * initState 3 i))) :=
  ⟨by norm_num, by norm_num,
    c5_amended_weighted_conservation 3 (by norm_num) 1 1 1 (by norm_num)⟩

/-- C6 as stated is false on the code: for `cell_count = 1` the assembly is
not free of out-of-range accesses — it writes column `1` (row `0`) and
column `-1` (row `num_x - 1 = 0`) on a `1 × 1` matrix. -/
theorem c6_counterexample :
    ¬ (∀ w ∈ writesA 1 ++ writesB 1, w.inBounds 1) := by decide

/-- C6 amended: every write of the operator assembly stays within the matrix
bounds exactly when `cell_count ≥ 2`; for `cell_count = 1` the boundary
closures write out of range (`c6_counterexample`). -/
theorem c6_amended_in_bounds (n : ℕ) (hn : 2 ≤ n) :
    ∀ w ∈ writesA n ++ writesB n, w.inBounds n := by
  have hb : ∀ d od : ℚ, ∀ w ∈ boundaryWrites n d od, w.inBounds n := by
    intro d od w hw
    have hw4 : w = ⟨0, 0, d⟩ ∨ w = ⟨0, 1, od⟩ ∨ w = ⟨(n : ℤ) - 1, (n : ℤ) - 2, od⟩ ∨
        w = ⟨(n : ℤ) - 1, (n : ℤ) - 1, d⟩ := by simpa [boundaryWrites] using hw
    rcases hw4 with h | h | h | h <;> subst h <;> simp only [MatWrite.inBounds] <;> omega
  have hi : ∀ l c r : ℚ, ∀ w ∈ interiorWrites n l c r, w.inBounds n := by
    intro l c r w hw
    rcases mem_interiorWrites.mp hw with ⟨k, hk1, hk2, h | h | h⟩ <;> subst h <;>
      simp only [MatWrite.inBounds] <;> omega
  intro w hw
  rcases List.mem_append.mp hw with hw | hw <;>
    rcases List.mem_append.mp hw with hw | hw
  · exact hi _ _ _ w hw
  · exact hb _ _ w hw
  · exact hi _ _ _ w hw
  · exact hb _ _ w hw

/-- Witness for the amended C6 at `n = 2`. -/
theorem c6_witness : (2 ≤ 2) ∧ ∀ w ∈ writesA 2 ++ writesB 2, w.inBounds 2 :=
  ⟨by norm_num, c6_amended_in_bounds 2 (by norm_num)⟩

/-- C7: the history is append-only — each loop iteration appends exactly the
new solve result and leaves every earlier entry in place (the history after
`t` steps is a prefix of the history after `t+1`), after `steps` iterations
it holds `steps + 1` states in step order, and each step's input is the
previous step's output. -/
theorem c7_history_append_only (n : ℕ) (alpha dt : ℚ) (steps : ℕ) :
    (∀ t, Thistory n alpha dt (t + 1) =
      Thistory n alpha dt t ++ [Tstate n alpha dt (t + 1)]) ∧
    (∀ t, Thistory n alpha dt t <+: Thistory n alpha dt (t + 1)) ∧
    (Thistory n alpha dt steps).length = steps + 1 ∧
    (∀ k, k ≤ steps → (Thistory n alpha dt steps)[k]? = some (Tstate n alpha dt k)) ∧
    (∀ k, Tstate n alpha dt (k + 1) =
      solveLU (matLHS n alpha dt) (matRHS n alpha dt *ᵥ Tstate n alpha dt k)) :=
  ⟨fun t => rfl, fun t => ⟨[Tstate n alpha dt (t + 1)], rfl⟩,
    Thistory_length n alpha dt steps,
    fun k hk => Thistory_getElem? n alpha dt steps k hk, fun k => rfl⟩

/-- C8: the stability ratio is `alpha * dt / dx²`, the advisory fires exactly
when it exceeds `1/2`, and it is non-fatal — the completed history always
holds `step_count + 1` states, whatever the ratio. -/
theorem c8_stability_advisory (n : ℕ) (alpha dt total_time : ℚ) :
    (warnOf n alpha dt = true ↔ alpha * dt / (dxOf n * dxOf n) > 1/2) ∧
    (runSim n alpha dt total_time).history.length = stepsOf total_time dt + 1 := by
  constructor
  · unfold warnOf courantOf
    exact decide_eq_true_iff
  · exact Thistory_length n alpha dt _

/-- C9: every invalid configuration — an unparsable numeric option, a missing
cell count, or a non-positive cell count — makes the run stop with an error
before any simulation state exists; no run output is produced. -/
theorem c9_invalid_config_rejected (args : CmdLine) (h : invalidConfig args) :
    ∃ e : ConfigError, runProgram args = Except.error e := by
  rcases args with ⟨a, d, t, c⟩
  rcases h with h | h | h | h | h | ⟨z, h, hz⟩
  · cases h
    exact ⟨_, rfl⟩
  · cases h
    rcases a with _ | _ | qa <;> exact ⟨_, rfl⟩
  · cases h
    rcases a with _ | _ | qa <;> rcases d with _ | _ | qd <;> exact ⟨_, rfl⟩
  · cases h
    rcases a with _ | _ | qa <;> rcases d with _ | _ | qd <;>
      rcases t with _ | _ | qt <;> exact ⟨_, rfl⟩
  · cases h
    rcases a with _ | _ | qa <;> rcases d with _ | _ | qd <;>
      rcases t with _ | _ | qt <;> exact ⟨_, rfl⟩
  · cases h
    rcases a with _ | _ | qa <;> rcases d with _ | _ | qd <;>
      rcases t with _ | _ | qt <;>
      first
        | exact ⟨_, rfl⟩
        | exact ⟨ConfigError.nonPositiveCellCount, by
            simp only [runProgram, parseConfig, resolveNum, if_pos hz, Except.map]⟩

/-- Witness for C9: the cell count is missing. -/
theorem c9_witness :
    invalidConfig ⟨Arg.absent, Arg.absent, Arg.absent, Arg.absent⟩ ∧
    ∃ e : ConfigError,
      runProgram ⟨Arg.absent, Arg.absent, Arg.absent, Arg.absent⟩ = Except.error e :=
  ⟨Or.inr (Or.inr (Or.inr (Or.inl rfl))),
    c9_invalid_config_rejected _ (Or.inr (Or.inr (Or.inr (Or.inl rfl))))⟩

/-- C10: the step count is the time quotient truncated toward zero, so when
`0 < total_time < dt` the loop runs zero times and the completed history is
exactly the singleton initial state. -/
theorem c10_zero_steps (total_time dt : ℚ) (h1 : 0 < total_time)
    (h2 : total_time < dt) :
    stepsOf total_time dt = 0 ∧
    ∀ (n : ℕ) (alpha : ℚ), runHistory n alpha dt total_time = [initState n] := by
  have hdt : (0 : ℚ) < dt := lt_trans h1 h2
  have hq : (0 : ℚ) < total_time / dt := div_pos h1 hdt
  have hlt : total_time / dt < 1 := (div_lt_one hdt).mpr h2
  have htr : truncToZero (total_time / dt) = 0 := by
    unfold truncToZero
    rw [if_pos hq.le]
    exact Int.floor_eq_zero_iff.mpr (Set.mem_Ico.mpr ⟨hq.le, hlt⟩)
  have hsteps : stepsOf total_time dt = 0 := by
    unfold stepsOf
    rw [htr]
    rfl
  exact ⟨hsteps, fun n alpha => by unfold runHistory; rw [hsteps]; rfl⟩

/-- Witness for C10 at `total_time = 1/2`, `dt = 1`. -/
theorem c10_witness :
    (0 < (1/2 : ℚ)) ∧ ((1/2 : ℚ) < 1) ∧
    (stepsOf (1/2) 1 = 0 ∧
     ∀ (n : ℕ) (alpha : ℚ), runHistory n alpha 1 (1/2) = [initState n]) :=
  ⟨by norm_num, by norm_num, c10_zero_steps (1/2) 1 (by norm_num) (by norm_num)⟩

end Head1d